import Mathlib

/-!
# Verification of the esbuild-foundry-plugin path-resolution core

This development embeds the path-traversal classification engine, the import
resolution engine and the manifest reconciliation engine of the plugin
(`src/onResolve.ts`, `src/manifestSchema.ts` / `foundryResolver`,
`foundryManifest`) as executable Lean definitions, and proves (or refutes)
the specified properties about them.

Node's `path.posix` primitives (`normalize`, `join`, `relative`, `parse`) are
external library collaborators of the source; they are modelled here from
their documented lexical behaviour, at the level of character lists so that
all definitions evaluate by kernel reduction.  The build runs on a POSIX
host, so `nativePath` = `path.posix` and the plugin's `normalize` (which
re-joins on the native separator) is the posix normalization itself.
-/

namespace FoundrySpec

/-! ## Part 1: the coarse pre-normalization traversal detector

Source (`src/foundryResolver.ts`):

  export const traversesUpDirectoryRegex =
      /^(((\.[/\\]+)|([^/\\]+[/\\]+)+?\.\.[/\\]+)*\.\.([/\\]+|$))/;

The regex only distinguishes three classes of characters: the separators
`/` and `\`, the dot `.`, and everything else.  We therefore embed it as a
`RegularExpression` over that three-letter alphabet, and a string is first
mapped letterwise through `classify`.  JavaScript's `RegExp.test` looks for
a match anywhere, but the pattern is anchored with `^`, so `test` succeeds
iff some *prefix* of the input is matched (`$` matching only at the very
end of the input). -/

/-- The character classes distinguished by `traversesUpDirectoryRegex`:
separators (`/` and `\`), the dot, and all other characters. -/
inductive PChar where
  | sep
  | dot
  | oth
deriving DecidableEq, Repr

/-- Classify one character the way the regex's character classes do. -/
def classify (c : Char) : PChar :=
  if c = '/' ∨ c = '\\' then .sep else if c = '.' then .dot else .oth

/-- `[/\]` -/
def sepC : RegularExpression PChar := .char .sep

/-- `[/\]+` -/
def sepP : RegularExpression PChar := sepC * .star sepC

/-- `[^/\]` -/
def nonsep : RegularExpression PChar := .char .dot + .char .oth

/-- `[^/\]+` -/
def nonsepP : RegularExpression PChar := nonsep * .star nonsep

/-- `\.[/\]+` — a `.` path segment (with its trailing separators). -/
def oGrp : RegularExpression PChar := .char .dot * sepP

/-- `[^/\]+[/\]+` — one arbitrary path segment with its trailing separators. -/
def unitG : RegularExpression PChar := nonsepP * sepP

/-- `([^/\]+[/\]+)+` (the `?` lazy modifier does not change the matched
language, only match priority, and `test` only asks for existence). -/
def unitsP : RegularExpression PChar := unitG * .star unitG

/-- `\.\.` -/
def ddR : RegularExpression PChar := .char .dot * .char .dot

/-- `([^/\]+[/\]+)+?\.\.[/\]+` — segments cancelled by a following `..`. -/
def nGrp : RegularExpression PChar := unitsP * (ddR * sepP)

/-- `(\.[/\]+)|([^/\]+[/\]+)+?\.\.[/\]+` — the starred inner group. -/
def grp : RegularExpression PChar := oGrp + nGrp

/-- `((\.[/\]+)|([^/\]+[/\]+)+?\.\.[/\]+)*\.\.` — everything before the
final `([/\]+|$)` alternative. -/
def bodyB : RegularExpression PChar := .star grp * ddR

/-- The whole pattern with the `[/\]+` alternative of its tail. -/
def fullR : RegularExpression PChar := bodyB * sepP

/-- Does some prefix of `cs` match `r`?  (`rmatch` is Mathlib's verified
derivative-based matcher.) -/
def ancMatch (r : RegularExpression PChar) : List PChar → Bool
  | [] => r.rmatch []
  | c :: cs => r.rmatch [] || ancMatch (r.deriv c) cs

/-- `traversesUpDirectoryRegex.test p`: the pattern is `^(B([/\]+|$))`, so it
succeeds iff some prefix matches `B·[/\]+`, or the entire input matches `B`
(the `$` case). -/
def traversesUpTest (p : String) : Bool :=
  let cs := p.data.map classify
  ancMatch fullR cs || bodyB.rmatch cs

/-! ### Segment structure of a raw path

For stating "the path nets upward" we cut the character list into maximal
separator-free nonempty segments, with both `/` and `\` acting as
separators (the claim's reading for unnormalized paths). -/

/-- `true` iff the abstract character is not a separator. -/
def notSep : PChar → Bool
  | .sep => false
  | _ => true

/-- Maximal nonempty separator-free segments of an abstract character list. -/
def splitSegs : List PChar → List (List PChar)
  | [] => []
  | .sep :: cs => splitSegs cs
  | .dot :: cs => (PChar.dot :: cs.takeWhile notSep) :: splitSegs (cs.dropWhile notSep)
  | .oth :: cs => (PChar.oth :: cs.takeWhile notSep) :: splitSegs (cs.dropWhile notSep)
termination_by l => l.length
decreasing_by
  all_goals simp only [List.length_cons]
  all_goals first
    | exact Nat.lt_succ_of_le (List.dropWhile_sublist _).length_le
    | exact Nat.lt_succ_self _

/-- The `..` segment. -/
def ddSeg : List PChar := [PChar.dot, PChar.dot]

/-- The `.` segment. -/
def dotSeg : List PChar := [PChar.dot]

/-- The effect of one `..` segment on the lexical-normalization stack:
cancel the most recent ordinary segment, or accumulate when only `..`s (or
nothing) have been emitted. -/
def popStep (stack : List (List PChar)) : List (List PChar) :=
  match stack with
  | [] => [ddSeg]
  | top :: stk => if top = ddSeg then ddSeg :: top :: stk else stk

/-- Standard lexical path normalization over a stack of already emitted
segments (most recent first): `.` segments vanish, `..` cancels via
`popStep`.  Modelled from the spec's description of lexical normalization
(§4.1); the stack bottom (the *first* emitted segment) is the last element
of `stack`. -/
def normGo (stack : List (List PChar)) : List (List PChar) → List (List PChar)
  | [] => stack.reverse
  | s :: segs =>
    if s = dotSeg then normGo stack segs
    else if s = ddSeg then normGo (popStep stack) segs
    else normGo (s :: stack) segs

/-- The number of `..` segments in a segment list. -/
def countD (segs : List (List PChar)) : Nat :=
  segs.countP (fun s => decide (s = ddSeg))

/-- The number of ordinary (neither `.` nor `..`) segments in a segment
list. -/
def countN (segs : List (List PChar)) : Nat :=
  segs.countP (fun s => decide (s ≠ ddSeg ∧ s ≠ dotSeg))

/-- Left-to-right scan used to analyse the coarse regex at segment level.
`armed` records that every segment since the last `..` (or since the
start) was a `.` segment; the scan succeeds when a `..` segment is met
while armed. -/
def scanPat (armed : Bool) : List (List PChar) → Bool
  | [] => false
  | s :: segs =>
    if s = dotSeg then scanPat armed segs
    else if s = ddSeg then armed || scanPat true segs
    else scanPat false segs

/-- The claim's hypothesis: `p` nets upward out of its starting directory,
i.e. `p` is not separator-initial (not an absolute path — lexical
normalization of an absolute path starts with the root, never with `..`),
and lexical normalization of its segments yields a path beginning with a
`..` segment.  Both `/` and `\` are tolerated as separators. -/
def netsUpward (p : String) : Bool :=
  let cs := p.data.map classify
  match cs.head? with
  | some PChar.sep => false
  | _ => decide ((normGo [] (splitSegs cs)).head? = some ddSeg)

/-! ## Part 2: the post-normalization classifier

Source (`src/onResolve.ts`):

  // Built for only POSIX normalized paths.
  const normalizedTraversesUpRegex = /\.\.(\/+|$)/;

This pattern is *unanchored*: `test` succeeds iff the two-dot sequence
occurs anywhere immediately before a `/` or before the end of the input.
Only `.` and `/` are distinguished, so we match directly on characters. -/

/-- Does the list begin with `..` followed by `/` or the end (a match of
`\.\.(\/+|$)` at this position)? -/
def ddAt : List Char → Bool
  | c1 :: c2 :: rest =>
    decide (c1 = '.') && decide (c2 = '.') &&
      (rest.isEmpty || decide (rest.head? = some '/'))
  | _ => false

/-- Scan for a match of `\.\.(\/+|$)` at every position. -/
def nTestChars : List Char → Bool
  | [] => false
  | c :: rest => ddAt (c :: rest) || nTestChars rest

/-- `normalizedTraversesUpRegex.test p`. -/
def normalizedTraversesUp (p : String) : Bool :=
  nTestChars p.data

/-- "Begins with a literal `..` segment followed by a separator or
end-of-string" (the property the spec ascribes to the classifier). -/
def beginsWithDotDotSeg (p : String) : Bool :=
  ddAt p.data

/-! ## Part 3: the Node `path.posix` collaborators

Modelled from the documented lexical behaviour of Node's
`path.posix.normalize` / `join` / `relative` / `parse` (external library
code the source imports as `nativePath, { posix as path }`).  Everything is
defined over `List Char` so that concrete evaluations reduce in the
kernel. -/

/-- Split a character list on `/`, keeping empty pieces (like
`String.prototype.split('/')`). -/
def splitChar : List Char → List (List Char)
  | [] => [[]]
  | c :: rest =>
    if c = '/' then [] :: splitChar rest
    else
      match splitChar rest with
      | s :: ss => (c :: s) :: ss
      | [] => [[c]]

/-- One step of Node's `normalizeString`: empty and `.` segments vanish,
`..` pops the most recent ordinary segment, and accumulates (when
`allowAboveRoot`, i.e. on a relative path) or vanishes (on an absolute
path) when there is nothing to pop. -/
def normStep (allowAboveRoot : Bool) (acc : List (List Char)) (seg : List Char) :
    List (List Char) :=
  if seg = [] ∨ seg = ['.'] then acc
  else if seg = ['.', '.'] then
    match acc.getLast? with
    | none => if allowAboveRoot then [['.', '.']] else []
    | some last =>
      if last = ['.', '.'] then (if allowAboveRoot then acc ++ [seg] else acc)
      else acc.dropLast
  else acc ++ [seg]

/-- `path.posix.normalize` on a character list. -/
def posixNormChars (cs : List Char) : List Char :=
  if cs = [] then ['.']
  else
    let isAbs := cs.head? = some '/'
    let trailing := cs.getLast? = some '/'
    let segs := (splitChar cs).foldl (normStep (decide ¬isAbs)) []
    let body := List.intercalate ['/'] segs
    if body = [] then (if isAbs then ['/'] else if trailing then ['.', '/'] else ['.'])
    else
      let body2 := if trailing then body ++ ['/'] else body
      if isAbs then '/' :: body2 else body2

/-- `path.posix.normalize`. -/
def posixNormalize (p : String) : String :=
  String.mk (posixNormChars p.data)

/-- The plugin's own `normalize` (`src/onResolve.ts`): `nativePath.normalize`
followed by replacing the native separator with `/`.  On the POSIX build
host the native separator already is `/`, so the replacement is the
identity. -/
def normalize (p : String) : String := posixNormalize p

/-- `path.posix.join` restricted to two arguments, as used by the source:
empty parts are skipped and the rest is `/`-joined then normalized. -/
def posixJoin (a b : String) : String :=
  if a = "" then (if b = "" then "." else posixNormalize b)
  else if b = "" then posixNormalize a
  else posixNormalize (String.mk (a.data ++ '/' :: b.data))

/-- `path.posix.resolve` of a single path against the process working
directory, which we fix to `/` (the two `relative` call sites below only
ever compare paths whose resolution is cwd-independent). -/
def posixResolve (p : String) : String :=
  if p.data.head? = some '/' then posixNormalize p
  else posixNormalize (String.mk ('/' :: p.data))

/-- The nonempty segments of a resolved path. -/
def segsAbs (s : String) : List (List Char) :=
  (splitChar s.data).filter (fun x => !x.isEmpty)

/-- Remove the common leading segments of two segment lists. -/
def stripCommon : List (List Char) → List (List Char) →
    List (List Char) × List (List Char)
  | a :: as, b :: bs => if a = b then stripCommon as bs else (a :: as, b :: bs)
  | as, bs => (as, bs)

/-- `path.posix.relative`: resolve both paths, drop the common leading
segments, then climb out of what remains of `f` and descend into what
remains of `t`. -/
def posixRelative (f t : String) : String :=
  if f = t then ""
  else
    let fr := segsAbs (posixResolve f)
    let tr := segsAbs (posixResolve t)
    let (fRest, tRest) := stripCommon fr tr
    String.mk (List.intercalate ['/']
      (List.replicate fRest.length ['.', '.'] ++ tRest))

/-- `path.posix.parse`, restricted to the `dir`/`base` fields used by the
source (input is an already-normalized path). -/
def posixParseDirBase (p : String) : String × String :=
  let parts := splitChar p.data
  let base := String.mk (parts.getLast?.getD [])
  let pre := parts.dropLast
  let dirChars := List.intercalate ['/'] pre
  let dir := if pre = [] then "" else if dirChars = [] then "/" else String.mk dirChars
  (dir, base)

/-- Raw string-prefix test, as JavaScript's `String.prototype.startsWith`
(a list-level definition that reduces in the kernel). -/
def jsStartsWith (s pre : String) : Bool :=
  pre.data.isPrefixOf s.data

/-! ## Part 4: the import resolution engine (`src/onResolve.ts`) -/

/-- The plugin configuration consumed by the resolution engine
(the relevant fields of `PluginData`). -/
structure PluginDataM where
  packageType : String
  packageName : String
  projectRoot : String
  rewriteRootImports : Bool
  pluginName : String := "foundryResolve"
deriving DecidableEq, Repr

/-- esbuild's `OnResolveArgs` (the fields the source reads). -/
structure ArgsM where
  importer : String
  path : String
  resolveDir : String
  kind : String
deriving DecidableEq, Repr

/-- A structured error as returned in an `errors` array
(`pluginName`/`text`/`detail`). -/
structure ErrObj where
  pluginName : String
  text : String
  detail : String
deriving DecidableEq, Repr

/-- The possible `OnResolveResult` shapes produced by the source:
`undefined` (defer to esbuild), a local file path in the `file` namespace,
a deferred runtime load in the `foundry-import` namespace, an external
passthrough, or an error list. -/
inductive ORResult where
  | undefined
  | file (path : String)
  | foundryRef (path : String)
  | external (path : String)
  | errors (es : List ErrObj)
deriving DecidableEq, Repr

/-- `normalizedTraversesUpRegex.test`, the form used inside the engine. -/
def nTest (p : String) : Bool := nTestChars p.data

/-- `getImportData`: the importer directory relative to the project root and
the normalized import path.  Throws (here: `Except.error`) when the
importer directory lies outside the configured project root. -/
def getImportData (pd : PluginDataM) (args : ArgsM) :
    Except String (String × String) :=
  let importerDir := normalize (posixRelative pd.projectRoot args.resolveDir)
  if nTest importerDir then
    .error ("Got an importer directory " ++ args.resolveDir ++
      " which lies outside of the configured project root " ++ pd.projectRoot ++ ".")
  else
    .ok (importerDir, normalize args.path)

/-- `getFoundryImport`: static and dynamic imports become deferred runtime
loads; any other reference form is passed through as external. -/
def getFoundryImport (args : ArgsM) (foundryRootRelative : String) : ORResult :=
  if args.kind = "import-statement" ∨ args.kind = "dynamic-import" then
    .foundryRef foundryRootRelative
  else
    .external args.path

/-- `onResolveTraversesUp`, the resolver registered for paths matched by the
coarse traversal regex. -/
def onResolveTraversesUp (pd : PluginDataM) (args : ArgsM) :
    Except String ORResult := do
  let (importerDir, importPath) ← getImportData pd args
  -- pathological match: normalization shows no upward traversal at all
  if ¬ nTest importPath then
    return .undefined
  let importRelativeToRoot := posixJoin importerDir importPath
  -- the joined path stays inside the project root: local, esbuild handles it
  if ¬ nTest importRelativeToRoot then
    return .undefined
  let packagePath := posixJoin (pd.packageType ++ "s") pd.packageName
  let foundryImporterPath := posixJoin packagePath importerDir
  let resolvesTo := posixJoin foundryImporterPath importPath
  if jsStartsWith resolvesTo packagePath then
    let projectRootRelative := posixRelative resolvesTo packagePath
    return .file (posixJoin pd.projectRoot projectRootRelative)
  return getFoundryImport args (posixNormalize resolvesTo)

/-- `onResolveAbsolute`, the resolver registered for `^[/\]` paths. -/
def onResolveAbsolute (pd : PluginDataM) (args : ArgsM) :
    Except String ORResult := do
  let (dir, base) := posixParseDirBase (normalize args.path)
  if args.kind = "entry-point" ∧ base = "module.json" ∧ dir = pd.projectRoot then
    return .undefined
  let (_importerDir, importPath) ← getImportData pd args
  if ¬ pd.rewriteRootImports then
    return .errors [{ pluginName := pd.pluginName
                      text := "Rewriting root imports is not enabled!"
                      detail := "Consider setting `options.imports.rewriteRootImports` to true in the plugin configuration if you would like root imports to be rewritten as relative imports." }]
  return getFoundryImport args (posixJoin "." importPath)

/-! ### The caching wrapper (`cachedResolve`)

The cache is a JavaScript object-of-objects; a stored value may itself be
`undefined` (the defer sentinel).  We model one flat association list from
the normalized `(importer, path)` pair to the stored
`OnResolveResult | undefined`, where later stores shadow earlier ones
(hence the store prepends).  The lookup distinguishes "no entry" from
"entry whose stored value is `undefined`" — but the source's guard
`cachedResult != null` cannot. -/

/-- The resolution cache. -/
abbrev ResolveCache := List ((String × String) × Option ORResult)

/-- `pluginData.onResolveCache[importer]?.[importPath]` (two-level access
flattened): `none` when no entry exists, `some v` when `v` is stored. -/
def cacheRead (c : ResolveCache) (k : String × String) : Option (Option ORResult) :=
  (c.find? (fun e => e.1 = k)).map (fun e => e.2)

/-- One invocation of the callback returned by `cachedResolve`.  Returns the
produced result, the new cache, and whether the underlying `callback` was
invoked. -/
def cachedResolve (callback : ArgsM → Option ORResult) (c : ResolveCache)
    (args : ArgsM) : Option ORResult × ResolveCache × Bool :=
  let key := (normalize args.importer, normalize args.path)
  match cacheRead c key with
  | some (some r) => (some r, c, false)   -- `cachedResult != null`
  | _ =>
    let r := callback args
    (r, (key, r) :: c, true)

/-! ## Part 5: the manifest reconciliation engine (`foundryManifest.ts`)

The manifest is a parsed JSON document manipulated with dynamic JavaScript
operations (`Object.entries`, optional chaining, `delete`, index
assignment).  We model the dynamic values explicitly. -/

/-- A JavaScript value as the manifest walker sees it.  `delete arr[i]`
leaves a hole; a hole and an explicitly stored `undefined` are
indistinguishable to every operation the source performs afterwards
(`Object.entries` snapshots are taken before any mutation of the walked
field, and `JSON.stringify` renders both as `null`), so holes are modelled
as stored `undefined`. -/
inductive JSValue where
  | undefined
  | null
  | bool (b : Bool)
  | num (n : Int)
  | str (s : String)
  | arr (xs : List JSValue)
  | obj (fields : List (String × JSValue))
deriving BEq, Repr

/-- Property read `v[key]` on an object (`undefined` when absent or when
`v` is not an object; the source only reads properties of the parsed
manifest object). -/
def jsGetField (v : JSValue) (key : String) : JSValue :=
  match v with
  | .obj fs =>
    match fs.find? (fun f => f.1 = key) with
    | some f => f.2
    | none => .undefined
  | _ => .undefined

/-- Optional chaining `(item)?.path`: `undefined` on `undefined`/`null`,
the `path` property on objects, `undefined` on every other primitive. -/
def jsOptPath (v : JSValue) : JSValue :=
  match v with
  | .obj _ => jsGetField v "path"
  | _ => .undefined

/-- `Object.entries(v)`: throws a `TypeError` on `undefined`/`null`,
indexes the elements of an array, indexes the characters of a string,
returns the own fields of an object, and is empty on other primitives. -/
def jsEntries : JSValue → Except String (List (String × JSValue))
  | .undefined => .error "TypeError: Cannot convert undefined or null to object"
  | .null => .error "TypeError: Cannot convert undefined or null to object"
  | .str s => .ok ((s.data.mapIdx (fun i c => (toString i, JSValue.str (String.mk [c])))))
  | .arr xs => .ok (xs.mapIdx (fun i x => (toString i, x)))
  | .obj fs => .ok fs
  | .bool _ => .ok []
  | .num _ => .ok []

/-- The side table of import-bearing manifest fields and whether their
entries are `{ path }` objects (source: `manifestImports`).  JavaScript
object literals iterate in insertion order. -/
def manifestImports : List (String × Bool) :=
  [("scripts", false), ("esmodules", false), ("styles", false),
   ("packs", true), ("languages", true)]

/-- The body of the inner entry loop of `forEachManifestImports`:
extract the import path (directly, or through `?.path` for path-object
fields), skip `undefined`, and hand the key path to the callback. -/
def entryStep (σ : Type) (manifestKey : String) (isPathObj : Bool)
    (callback : σ → String → JSValue → String → String → Bool → Except String σ)
    (st : σ) (en : String × JSValue) : Except String σ := do
  let (i, importsItem) := en
  let importPath := if isPathObj then jsOptPath importsItem else importsItem
  match importPath with
  | .undefined => return st     -- `typeof importPath === "undefined"` → continue
  | _ =>
    let keyPath := manifestKey ++ "[" ++ i ++ "]" ++ (if isPathObj then ".path" else "")
    callback st keyPath importPath manifestKey i isPathObj

/-- The body of the outer field loop of `forEachManifestImports`:
`Object.entries(manifestJSON[manifestKey])` — which throws when the field
is absent — then the inner entry loop. -/
def fieldStep (σ : Type) (manifest : JSValue)
    (callback : σ → String → JSValue → String → String → Bool → Except String σ)
    (st : σ) (kv : String × Bool) : Except String σ := do
  let (manifestKey, isPathObj) := kv
  let importArr := jsGetField manifest manifestKey
  let entries ← jsEntries importArr
  entries.foldlM (entryStep σ manifestKey isPathObj callback) st

/-- `forEachManifestImports`, parametrized by a state-passing callback
(the source's callback closes over mutable state; `σ` carries it).  The
callback receives the key path (`scripts[2]` / `languages[4].path`),
the import value, the manifest key, the entries key (the source applies
`parseInt` to it) and the path-object flag. -/
def forEachManifestImports (σ : Type) (manifest : JSValue)
    (callback : σ → String → JSValue → String → String → Bool → Except String σ)
    (init : σ) : Except String σ :=
  manifestImports.foldlM (fieldStep σ manifest callback) init

/-- A pure recording callback used to study the walker itself. -/
def recordCB (acc : List (String × JSValue)) (keyPath : String)
    (importPath : JSValue) (_mk _i : String) (_ipo : Bool) :
    Except String (List (String × JSValue)) :=
  .ok (acc ++ [(keyPath, importPath)])

/-- The walker applied to the recording callback: collect every
`(keyPath, importPath)` pair the callback would receive. -/
def walkManifestImports (manifest : JSValue) :
    Except String (List (String × JSValue)) :=
  forEachManifestImports (List (String × JSValue)) manifest recordCB []

/-- `JSON.stringify` of a plain string (the escapes that can occur in the
strings handled here). -/
def jsonQuote (s : String) : String :=
  "\"" ++ String.mk (s.data.foldr (fun c acc =>
    if c = '"' ∨ c = '\\' then '\\' :: c :: acc else c :: acc) []) ++ "\""

/-- `JSON.stringify` of a manifest import value (the source interpolates
the import value into error messages; for the string values that occur
this is just quoting). -/
def jsonShow : JSValue → String
  | .str s => jsonQuote s
  | .num n => toString n
  | .bool b => toString b
  | .null => "null"
  | .undefined => "undefined"
  | .arr _ => "[array]"
  | .obj _ => "[object]"

/-! ### `resolveManifestImport` (phase A)

`build.resolve` is esbuild's resolver, an external collaborator: it is
passed in as an oracle mapping `(path, resolveDir)` to a resolve result. -/

/-- The esbuild `ResolveResult` fields the source consumes. -/
structure BuildResolveRes where
  errors : List ErrObj
  path : String
deriving DecidableEq, Repr

/-- The result of `resolveManifestImport`: the spread resolve data with the
`localImport` marker. -/
structure MRes where
  errors : List ErrObj
  path : String
  localImport : Bool
deriving DecidableEq, Repr

/-- `resolveManifestImport`: try the declared path relative to the project
root, then (except under `packs`) relative to the host `../../scripts`
directory. -/
def resolveManifestImport (pd : PluginDataM)
    (buildResolve : String → String → BuildResolveRes)
    (manifestImport keyPath : String) : MRes :=
  let manifestFile := pd.packageType ++ ".json"
  let normalizedPath := normalize manifestImport
  let relativeImportData := buildResolve ("./" ++ normalizedPath) pd.projectRoot
  if relativeImportData.errors = [] then
    { errors := relativeImportData.errors, path := normalizedPath, localImport := true }
  else
    let scriptsImportData :=
      buildResolve (posixJoin "../../scripts" manifestImport) pd.projectRoot
    if jsStartsWith keyPath "packs" then
      let foundryPacksBugDetails :=
        if scriptsImportData.errors = [] then
          " This import seems to exist within Foundry's \"scripts\" directory on Foundry servers. Unlike every other manifest import \"packs\" do not try to resolve within the \"scripts\" directory."
        else ""
      let resolveError : ErrObj :=
        { pluginName := pd.pluginName
          text := "Could not resolve " ++ jsonQuote manifestImport
          detail := "The import in " ++ jsonQuote manifestFile ++ " at " ++
            jsonQuote keyPath ++ ", " ++ jsonQuote manifestImport ++
            " does not exist as a relative path." ++ foundryPacksBugDetails }
      { errors := [resolveError], path := relativeImportData.path, localImport := false }
    else if scriptsImportData.errors ≠ [] then
      let resolveError : ErrObj :=
        { pluginName := pd.pluginName
          text := "Could not resolve " ++ jsonQuote manifestImport
          detail := "The import in " ++ jsonQuote manifestFile ++ " at " ++
            jsonQuote keyPath ++ ", " ++ jsonQuote manifestImport ++
            " could not resolve as a relative path or within the \"scripts\" directory on Foundry servers." }
      { errors := [resolveError], path := scriptsImportData.path, localImport := false }
    else
      { errors := scriptsImportData.errors, path := normalizedPath, localImport := false }

/-! ### `setupManifest` (phase A entry point)

The body unconditionally recomputes `getManifest` — reading, validating and
resolving the manifest — and only the *store* into `cachedManifest` is
guarded by the `== null` check.  `getManifest` performs I/O, so it is
passed in as a call-indexed oracle and the state counts how often it was
invoked. -/

/-- The data `getManifest` produces. -/
structure ManifestDataM where
  errors : List ErrObj
  manifestJSON : JSValue
  localImports : List String

/-- The mutable plugin state `setupManifest` touches, plus an invocation
counter for the `getManifest` computation. -/
structure PStateM where
  cachedManifest : Option (JSValue × List String)
  getManifestCalls : Nat

/-- One invocation of `setupManifest`. -/
def setupManifest (getManifestAt : Nat → ManifestDataM) (st : PStateM) :
    Option (List ErrObj) × PStateM :=
  -- `const { manifestJSON, errors, localImports } = await getManifest(...)`
  -- runs before the cache is consulted.
  let md := getManifestAt st.getManifestCalls
  let st := { st with getManifestCalls := st.getManifestCalls + 1 }
  if md.errors ≠ [] then
    (some md.errors, st)
  else
    match st.cachedManifest with
    | none => (none, { st with cachedManifest := some (md.manifestJSON, md.localImports) })
    | some _ => (none, st)

/-! ### `createManifest` (phase B)

The walk over the deep-copied manifest: look each declared import up in the
bundler's input→output map, copy unbundled local imports, rewrite bundled
paths, and detect output collisions. -/

/-- `parseInt(i, 10)` on an `Object.entries` key (a kernel-reducible
decimal parser; non-numeric keys give `NaN`, here `none`). -/
def parseIdx (s : String) : Option Nat :=
  let ds := s.data
  if ds ≠ [] ∧ ds.all (fun c => c.isDigit) then
    some (ds.foldl (fun n c => n * 10 + (c.toNat - 48)) 0)
  else none

/-- JavaScript string-keyed array update `arr[i] = v` where `i` is the
decimal index produced by `Object.entries`/`parseInt` (a non-numeric key
would create an invisible non-index property; it leaves the array
unchanged here). -/
def jsArrSet (xs : List JSValue) (i : String) (v : JSValue) : List JSValue :=
  match parseIdx i with
  | some n => xs.set n v
  | none => xs

/-- `importArr[index].path = v` on an element that is an object (on any
other element the assignment has no observable effect on the manifest
JSON). -/
def jsArrSetPath (xs : List JSValue) (i : String) (v : JSValue) : List JSValue :=
  match parseIdx i with
  | some n =>
    match xs.get? n with
    | some (.obj fs) =>
      xs.set n (.obj (if (fs.find? (fun f => f.1 = "path")).isSome
        then fs.map (fun f => if f.1 = "path" then ("path", v) else f)
        else fs ++ [("path", v)]))
    | _ => xs
  | none => xs

/-- Replace a field of the manifest object. -/
def jsObjSet (m : JSValue) (key : String) (v : JSValue) : JSValue :=
  match m with
  | .obj fs =>
    .obj (if (fs.find? (fun f => f.1 = key)).isSome
      then fs.map (fun f => if f.1 = key then (key, v) else f)
      else fs ++ [(key, v)])
  | other => other

/-- The evolving state of the phase-B walk: the manifest being rewritten,
the `outputs` collision map (output path → import that claimed it) and the
list of local imports copied verbatim. -/
structure CMState where
  manifest : JSValue
  outputs : List (String × String)
  copies : List String

/-- The `createManifest` walk (source lines 316–379): the file read/write
and `mkdir`/`copyFile` side effects are recorded rather than performed, and
`inputsToOutputs` — derived from the bundler's metafile — is passed in. -/
def createManifestWalk (manifest : JSValue)
    (inputsToOutputs : List (String × String)) (localImports : List String) :
    Except String (JSValue × List String) := do
  let st ← forEachManifestImports CMState manifest
    (fun st _keyPath importPath manifestKey index isPathObj => do
      let importKey := match importPath with
        | .str s => s
        | other => jsonShow other
      match (inputsToOutputs.find? (fun e => e.1 = importKey)).map (fun e => e.2) with
      | none =>
        -- ESBuild has no info for us: copy the file if it was a local import.
        if localImports.contains importKey then
          return { st with copies := st.copies ++ [importKey] }
        return st
      | some outputPath =>
        let otherImport := (st.outputs.find? (fun e => e.1 = outputPath)).map (fun e => e.2)
        let st ← do
          match otherImport with
          | some other =>
            if isPathObj then
              Except.error ("Found two imports " ++ jsonQuote other ++ " and " ++
                jsonShow importPath ++ " that get bundled to " ++ jsonQuote outputPath ++
                ". As this is within the " ++ manifestKey ++
                " manifest property this most indicates error as bundling packs or languages files together will produce undesirable results.")
            else
              -- delete importArr[index]
              let importArr := jsGetField st.manifest manifestKey
              match importArr with
              | .arr xs =>
                let m2 := jsObjSet st.manifest manifestKey (.arr (jsArrSet xs index .undefined))
                pure { st with manifest := m2 }
              | _ => pure st
          | none => pure st
        -- Update the path (this runs even right after the delete above).
        let importArr := jsGetField st.manifest manifestKey
        let st :=
          match importArr with
          | .arr xs =>
            let updated :=
              if isPathObj then jsObjSet st.manifest manifestKey (.arr (jsArrSetPath xs index (.str outputPath)))
              else jsObjSet st.manifest manifestKey (.arr (jsArrSet xs index (.str outputPath)))
            { st with manifest := updated }
          | _ => st
        let outputs2 := (outputPath, importKey) :: st.outputs.filter (fun e => e.1 ≠ outputPath)
        return { st with outputs := outputs2 })
    { manifest := manifest, outputs := [], copies := [] }
  return (st.manifest, st.copies)

/-! ## Theorems -/

/-! ### Claim C3 -/

/-- Claim C3 (code bug, evaluation at the failing inputs).  With package
`lorem` of type `module` under project root `/proj`:
(1) at the spec's example — importer `scripts/foo/bar.js`, raw import
`../../modules/lorem/baz.js` — the joined root-relative path is
`modules/lorem/baz.js`, which does not escape the root, so the code returns
`undefined` (defer to esbuild) instead of the claimed `SelfPackage` result;
(2) on an input that does reach the self-package branch — importer in
`scripts`, raw import `../../lorem/baz.js`, so `resolvesTo` is
`modules/lorem/baz.js` — the code returns the filesystem path `/` (it
computes `path.relative(resolvesTo, packagePath)`, i.e. `..`, with the
arguments swapped and joins that onto the project root) instead of the
claimed `/proj/baz.js` obtained by stripping the runtime prefix. -/
theorem claim3_self_package_path_bug :
    (onResolveTraversesUp
      { packageType := "module", packageName := "lorem", projectRoot := "/proj",
        rewriteRootImports := false }
      { importer := "/proj/scripts/foo/bar.js", path := "../../modules/lorem/baz.js",
        resolveDir := "/proj/scripts/foo", kind := "import-statement" }
      = .ok .undefined)
    ∧ (onResolveTraversesUp
      { packageType := "module", packageName := "lorem", projectRoot := "/proj",
        rewriteRootImports := false }
      { importer := "/proj/scripts/bar.js", path := "../../lorem/baz.js",
        resolveDir := "/proj/scripts", kind := "import-statement" }
      = .ok (.file "/"))
    ∧ posixJoin "/proj" "baz.js" = "/proj/baz.js" :=
  ⟨rfl, rfl, rfl⟩

/-! ### Claim C10 -/

/-- Claim C10 (confirmed).  The self-package test is a raw string-prefix
comparison: for package `foo`, the import `../../foobar/x.js` from the
`scripts` directory resolves to the runtime path `modules/foobar/x.js` —
inside the *sibling* package directory `modules/foobar` — yet
`"modules/foobar/x.js".startsWith("modules/foo")` holds, so resolution
takes the self-package branch and returns a local filesystem path (the
`file` variant) instead of classifying the import as host-external. -/
theorem claim10_raw_string_self_package :
    (posixJoin (posixJoin (posixJoin "modules" "foo") "scripts") "../../foobar/x.js"
      = "modules/foobar/x.js")
    ∧ jsStartsWith "modules/foobar/x.js" (posixJoin "modules" "foo") = true
    ∧ (onResolveTraversesUp
      { packageType := "module", packageName := "foo", projectRoot := "/proj",
        rewriteRootImports := false }
      { importer := "/proj/scripts/bar.js", path := "../../foobar/x.js",
        resolveDir := "/proj/scripts", kind := "import-statement" }
      = .ok (.file "/foo")) :=
  ⟨rfl, rfl, rfl⟩

/-! ### Claim C8 -/

/-- Claim C8 (code bug, evaluation at the failing input).  The manifest
exemption in `onResolveAbsolute` is hardcoded to the file name
`module.json`: for a package of type `system`, the absolute path of its own
manifest `/proj/system.json`, referenced as an entry point with the
rewrite-root-imports capability disabled, is *not* exempted and produces
the capability error, contradicting the claim's `<packageType>.json`
exemption; the same reference for a `module` package is exempted, and with
the capability enabled an absolute import is rewritten through the same
`getFoundryImport` path as a relative escaping import. -/
theorem claim8_manifest_exemption_hardcoded :
    (onResolveAbsolute
      { packageType := "system", packageName := "x", projectRoot := "/proj",
        rewriteRootImports := false }
      { importer := "", path := "/proj/system.json", resolveDir := "/proj",
        kind := "entry-point" }
      = .ok (.errors [⟨"foundryResolve", "Rewriting root imports is not enabled!",
          "Consider setting `options.imports.rewriteRootImports` to true in the plugin configuration if you would like root imports to be rewritten as relative imports."⟩]))
    ∧ (onResolveAbsolute
      { packageType := "module", packageName := "x", projectRoot := "/proj",
        rewriteRootImports := false }
      { importer := "", path := "/proj/module.json", resolveDir := "/proj",
        kind := "entry-point" }
      = .ok .undefined)
    ∧ (onResolveAbsolute
      { packageType := "module", packageName := "x", projectRoot := "/proj",
        rewriteRootImports := true }
      { importer := "/proj/a.js", path := "/x/y.js", resolveDir := "/proj",
        kind := "import-statement" }
      = .ok (.foundryRef "x/y.js")) :=
  ⟨rfl, rfl, rfl⟩

/-! ### Claim C5 -/

/-- Claim C5 (code bug, evaluation at the failing input).  At build end,
with two `scripts` entries `a.js` and `b.js` both bundled to `out.js`:
the source `delete`s the later entry but immediately reassigns
`importArr[index] = outputPath` on the next statement, so the emitted
manifest keeps *two* entries, both rewritten to `out.js` — the later
declaration is not dropped as claimed.  For the object-valued `packs`
field the collision does raise the claimed fatal error naming both source
paths and the shared output path. -/
theorem claim5_collision_behavior :
    (createManifestWalk
      (.obj [("scripts", .arr [.str "a.js", .str "b.js"]), ("esmodules", .arr []),
             ("styles", .arr []), ("packs", .arr []), ("languages", .arr [])])
      [("a.js", "out.js"), ("b.js", "out.js")] []
      = .ok (.obj [("scripts", .arr [.str "out.js", .str "out.js"]),
                   ("esmodules", .arr []), ("styles", .arr []),
                   ("packs", .arr []), ("languages", .arr [])], []))
    ∧ (createManifestWalk
      (.obj [("scripts", .arr []), ("esmodules", .arr []), ("styles", .arr []),
             ("packs", .arr [.obj [("name", .str "a"), ("path", .str "packs/a.db")],
                             .obj [("path", .str "packs/b.db")]]),
             ("languages", .arr [])])
      [("packs/a.db", "packs/out.db"), ("packs/b.db", "packs/out.db")] []
      = .error "Found two imports \"packs/a.db\" and \"packs/b.db\" that get bundled to \"packs/out.db\". As this is within the packs manifest property this most indicates error as bundling packs or languages files together will produce undesirable results.") :=
  ⟨rfl, rfl⟩

/-! ### Claim C4 -/

/-- Claim C4 counterexample.  A callback that defers (returns `undefined`)
is invoked again on the second identical request: the sentinel is stored in
the cache after the first call (third conjunct), but the guard
`cachedResult != null` cannot distinguish it from an absent entry, so the
underlying computation runs twice (first two conjuncts), refuting "the
caching resolver invokes the underlying computation at most once — a
stored undefined result is never recomputed". -/
theorem claim4_counterexample :
    ((cachedResolve (fun _ => none) []
        { importer := "/p/a.js", path := "./b.js", resolveDir := "/p",
          kind := "import-statement" }).2.2 = true)
    ∧ ((cachedResolve (fun _ => none)
        (cachedResolve (fun _ => none) []
          { importer := "/p/a.js", path := "./b.js", resolveDir := "/p",
            kind := "import-statement" }).2.1
        { importer := "/p/a.js", path := "./b.js", resolveDir := "/p",
          kind := "import-statement" }).2.2 = true)
    ∧ (cacheRead
        (cachedResolve (fun _ => none) []
          { importer := "/p/a.js", path := "./b.js", resolveDir := "/p",
            kind := "import-statement" }).2.1
        (normalize "/p/a.js", normalize "./b.js") = some none) :=
  ⟨rfl, rfl, rfl⟩

/-- A cache hit (`cachedResult != null`) returns the stored decision
without touching anything. -/
theorem cachedResolve_hit (cb : ArgsM → Option ORResult) (c : ResolveCache)
    (args : ArgsM) (x : ORResult)
    (h : cacheRead c (normalize args.importer, normalize args.path) = some (some x)) :
    cachedResolve cb c args = (some x, c, false) := by
  unfold cachedResolve
  dsimp only
  rw [h]

/-- A cache miss (absent entry, or a stored `undefined`) invokes the
callback and stores its result. -/
theorem cachedResolve_miss (cb : ArgsM → Option ORResult) (c : ResolveCache)
    (args : ArgsM)
    (h : ∀ x, cacheRead c (normalize args.importer, normalize args.path) ≠ some (some x)) :
    cachedResolve cb c args =
      (cb args, ((normalize args.importer, normalize args.path), cb args) :: c, true) := by
  unfold cachedResolve
  dsimp only
  rcases hcr : cacheRead c (normalize args.importer, normalize args.path) with _ | ⟨_ | x⟩
  · rfl
  · rfl
  · exact absurd hcr (h x)

/-- Reading the key just stored. -/
theorem cacheRead_cons_self (c : ResolveCache) (k : String × String)
    (v : Option ORResult) : cacheRead ((k, v) :: c) k = some v := by
  simp [cacheRead]

/-- Claim C4 as amended.  The caching wrapper memoizes per
`(normalize importer, normalize path)` only those computations that return
a non-`undefined` decision: whenever the callback's answer for the request
is not the `undefined` sentinel, a second identical request after any first
one is served from the cache without invoking the callback again.
(`undefined`/Deferred answers are stored but are indistinguishable from
"not yet computed" to the `!= null` guard, so they are recomputed — see the
counterexample.) -/
theorem claim4_amended_memoization
    (callback : ArgsM → Option ORResult) (c : ResolveCache) (args : ArgsM)
    (h : callback args ≠ none) :
    (cachedResolve callback (cachedResolve callback c args).2.1 args).2.2 = false := by
  obtain ⟨r, hr⟩ := Option.ne_none_iff_exists'.mp h
  by_cases hcase : ∃ x, cacheRead c (normalize args.importer, normalize args.path)
      = some (some x)
  · obtain ⟨x, hx⟩ := hcase
    rw [cachedResolve_hit callback c args x hx]
    rw [cachedResolve_hit callback c args x hx]
  · push_neg at hcase
    rw [cachedResolve_miss callback c args hcase]
    have hx : cacheRead
        (((normalize args.importer, normalize args.path), callback args) :: c)
        (normalize args.importer, normalize args.path) = some (some r) := by
      rw [cacheRead_cons_self, hr]
    rw [cachedResolve_hit callback _ args r hx]

/-- Witness for `claim4_amended_memoization` at a concrete request. -/
theorem claim4_witness :
    (fun (_ : ArgsM) => some ORResult.undefined)
        { importer := "/p/a.js", path := "./b.js", resolveDir := "/p",
          kind := "import-statement" } ≠ none
    ∧ (cachedResolve (fun _ => some ORResult.undefined)
        (cachedResolve (fun _ => some ORResult.undefined) []
          { importer := "/p/a.js", path := "./b.js", resolveDir := "/p",
            kind := "import-statement" }).2.1
        { importer := "/p/a.js", path := "./b.js", resolveDir := "/p",
          kind := "import-statement" }).2.2 = false :=
  ⟨fun hc => Option.noConfusion hc,
   claim4_amended_memoization (fun _ => some ORResult.undefined) []
     { importer := "/p/a.js", path := "./b.js", resolveDir := "/p",
       kind := "import-statement" }
     (fun hc => Option.noConfusion hc)⟩

/-! ### Claim C7 -/

/-- Claim C7 counterexample.  If the start hook fires twice in one build,
the *second* invocation runs the whole phase-A computation again — the
`getManifest` oracle is consulted twice (first conjunct), because
`setupManifest` recomputes before consulting `cachedManifest`.  Only the
store is guarded: the cache keeps the first invocation's manifest (second
conjunct).  This refutes "the second and later invocations perform no
repeated computation or side effects". -/
theorem claim7_counterexample :
    ((setupManifest
        (fun n => { errors := [], manifestJSON := .str (toString n), localImports := [] })
        (setupManifest
          (fun n => { errors := [], manifestJSON := .str (toString n), localImports := [] })
          { cachedManifest := none, getManifestCalls := 0 }).2).2.getManifestCalls = 2)
    ∧ ((setupManifest
        (fun n => { errors := [], manifestJSON := .str (toString n), localImports := [] })
        (setupManifest
          (fun n => { errors := [], manifestJSON := .str (toString n), localImports := [] })
          { cachedManifest := none, getManifestCalls := 0 }).2).2.cachedManifest
      = some (.str "0", [])) :=
  ⟨rfl, rfl⟩

/-- Claim C7 as amended.  Every invocation of the start hook re-runs the
phase-A manifest computation (the call counter always increments), but the
`cachedManifest == null` guard makes the *store* idempotent: once a
ManifestState is cached it is never overwritten, so the state consumed at
build end is the one from the first error-free invocation. -/
theorem claim7_amended_cache_guard
    (getManifestAt : Nat → ManifestDataM) (st : PStateM)
    (x : JSValue × List String) (hc : st.cachedManifest = some x) :
    (setupManifest getManifestAt st).2.cachedManifest = some x
    ∧ (setupManifest getManifestAt st).2.getManifestCalls = st.getManifestCalls + 1 := by
  unfold setupManifest
  rcases he : (getManifestAt st.getManifestCalls).errors with _ | ⟨e, es⟩ <;>
    simp [he, hc]

/-- Witness for `claim7_amended_cache_guard` at a concrete state. -/
theorem claim7_witness :
    ({ cachedManifest := some (.str "m", []), getManifestCalls := 1 } : PStateM).cachedManifest
      = some (.str "m", [])
    ∧ ((setupManifest
        (fun _ => { errors := [], manifestJSON := .str "other", localImports := [] })
        { cachedManifest := some (.str "m", []), getManifestCalls := 1 }).2.cachedManifest
      = some (.str "m", [])
    ∧ (setupManifest
        (fun _ => { errors := [], manifestJSON := .str "other", localImports := [] })
        { cachedManifest := some (.str "m", []), getManifestCalls := 1 }).2.getManifestCalls
      = 1 + 1) :=
  ⟨rfl,
   claim7_amended_cache_guard
     (fun _ => { errors := [], manifestJSON := .str "other", localImports := [] })
     { cachedManifest := some (.str "m", []), getManifestCalls := 1 }
     (.str "m", []) rfl⟩

/-! ### Claim C6 -/

/-- Claim C6 (confirmed).  Whenever package-root-relative resolution of a
declared manifest import fails (`h1`) while the `../../scripts` fallback
would succeed (`h2`): under `packs[0].path` the result is the fatal
diagnostic whose detail names the field and index (the quoted
`packs[0].path` appears in the message) and the fallback's success is
*not* used to resolve the entry; while the identical declared path under
`scripts[0]` does use the fallback and produces no error (and is marked
non-local). -/
theorem claim6_packs_no_fallback
    (pd : PluginDataM) (br : String → String → BuildResolveRes) (imp : String)
    (h1 : (br ("./" ++ normalize imp) pd.projectRoot).errors ≠ [])
    (h2 : (br (posixJoin "../../scripts" imp) pd.projectRoot).errors = []) :
    (resolveManifestImport pd br imp "packs[0].path"
      = { errors := [⟨pd.pluginName, "Could not resolve " ++ jsonQuote imp,
            "The import in " ++ jsonQuote (pd.packageType ++ ".json") ++ " at " ++
            jsonQuote "packs[0].path" ++ ", " ++ jsonQuote imp ++
            " does not exist as a relative path." ++
            " This import seems to exist within Foundry's \"scripts\" directory on Foundry servers. Unlike every other manifest import \"packs\" do not try to resolve within the \"scripts\" directory."⟩],
          path := (br ("./" ++ normalize imp) pd.projectRoot).path,
          localImport := false })
    ∧ (resolveManifestImport pd br imp "scripts[0]"
      = { errors := [], path := normalize imp, localImport := false }) := by
  have hpacks : jsStartsWith "packs[0].path" "packs" = true := by decide
  have hns : ¬ (jsStartsWith "scripts[0]" "packs" = true) := by decide
  constructor
  · unfold resolveManifestImport
    dsimp only
    rw [if_neg h1, if_pos hpacks, if_pos h2]
  · unfold resolveManifestImport
    dsimp only
    rw [if_neg h1, if_neg hns, if_neg (fun hne => hne h2), h2]

/-- Witness for `claim6_packs_no_fallback` at a concrete resolver oracle:
`./x.db` fails root-relative resolution, the scripts fallback succeeds. -/
theorem claim6_witness :
    ((fun p (_ : String) => if p = "./x.db"
        then ({ errors := [⟨"esbuild", "e", "e"⟩], path := "" } : BuildResolveRes)
        else { errors := [], path := "/scripts/x.db" }) ("./" ++ normalize "x.db") "/proj").errors ≠ []
    ∧ (resolveManifestImport
        { packageType := "module", packageName := "m", projectRoot := "/proj",
          rewriteRootImports := false }
        (fun p (_ : String) => if p = "./x.db"
          then { errors := [⟨"esbuild", "e", "e"⟩], path := "" }
          else { errors := [], path := "/scripts/x.db" })
        "x.db" "scripts[0]"
      = { errors := [], path := normalize "x.db", localImport := false }) := by
  refine ⟨by decide, ?_⟩
  exact (claim6_packs_no_fallback
    { packageType := "module", packageName := "m", projectRoot := "/proj",
      rewriteRootImports := false }
    (fun p (_ : String) => if p = "./x.db"
      then { errors := [⟨"esbuild", "e", "e"⟩], path := "" }
      else { errors := [], path := "/scripts/x.db" })
    "x.db" (by decide) (by decide)).2

/-! ### Claim C9 -/

/-- The inner entry loop with the recording callback never throws. -/
theorem entry_fold_record_ok (mk : String) (ipo : Bool)
    (entries : List (String × JSValue)) :
    ∀ st, ∃ st', entries.foldlM (entryStep (List (String × JSValue)) mk ipo recordCB) st
      = .ok st' := by
  induction entries with
  | nil => exact fun st => ⟨st, rfl⟩
  | cons en rest ih =>
    intro st
    have hstep : ∃ st₁, entryStep (List (String × JSValue)) mk ipo recordCB st en
        = .ok st₁ := by
      obtain ⟨i, item⟩ := en
      unfold entryStep recordCB
      dsimp only
      rcases (if ipo then jsOptPath item else item) with _ | _ | b | n | s | xs | fs <;>
        exact ⟨_, rfl⟩
    obtain ⟨st₁, hst₁⟩ := hstep
    obtain ⟨st', hst'⟩ := ih st₁
    exact ⟨st', by rw [List.foldlM_cons, hst₁]; exact hst'⟩

/-- A field whose value is absent (`undefined`) makes `fieldStep` throw. -/
theorem fieldStep_record_err (m : JSValue) (k : String) (b : Bool)
    (st : List (String × JSValue)) (h : jsGetField m k = .undefined) :
    fieldStep (List (String × JSValue)) m recordCB st (k, b)
      = .error "TypeError: Cannot convert undefined or null to object" := by
  unfold fieldStep
  dsimp only
  rw [h]
  rfl

/-- A field whose value is an array lets `fieldStep` succeed. -/
theorem fieldStep_record_ok (m : JSValue) (k : String) (b : Bool)
    (st : List (String × JSValue)) (xs : List JSValue)
    (h : jsGetField m k = .arr xs) :
    ∃ st', fieldStep (List (String × JSValue)) m recordCB st (k, b) = .ok st' := by
  unfold fieldStep
  dsimp only
  rw [h]
  exact entry_fold_record_ok k b _ st

/-- Over any field table, one absent field poisons the whole walk. -/
theorem walk_table_err (tbl : List (String × Bool)) (m : JSValue) :
    ∀ st k b, (k, b) ∈ tbl → jsGetField m k = .undefined →
      (tbl.foldlM (fieldStep (List (String × JSValue)) m recordCB) st).isOk = false := by
  induction tbl with
  | nil => intro st k b hmem; exact absurd hmem (List.not_mem_nil _)
  | cons kv rest ih =>
    intro st k b hmem hu
    rw [List.foldlM_cons]
    rcases List.mem_cons.mp hmem with heq | htail
    · subst heq
      rw [fieldStep_record_err m k b st hu]
      rfl
    · rcases hf : fieldStep (List (String × JSValue)) m recordCB st kv with e | st₁
      · rfl
      · exact ih st₁ k b htail hu

/-- Over any field table, all-array fields make the whole walk succeed. -/
theorem walk_table_ok (tbl : List (String × Bool)) (m : JSValue) :
    (∀ k b, (k, b) ∈ tbl → ∃ xs, jsGetField m k = .arr xs) →
      ∀ st, ∃ st', tbl.foldlM (fieldStep (List (String × JSValue)) m recordCB) st
        = .ok st' := by
  induction tbl with
  | nil => exact fun _ st => ⟨st, rfl⟩
  | cons kv rest ih =>
    intro h st
    obtain ⟨k, b⟩ := kv
    obtain ⟨xs, hxs⟩ := h k b (List.mem_cons_self _ _)
    obtain ⟨st₁, hst₁⟩ := fieldStep_record_ok m k b st xs hxs
    obtain ⟨st', hst'⟩ := ih (fun k' b' hm => h k' b' (List.mem_cons_of_mem _ hm)) st₁
    exact ⟨st', by rw [List.foldlM_cons, hst₁]; exact hst'⟩

/-- Claim C9 counterexample.  A manifest whose `scripts` field holds the
number `42` (not an array) while the other four fields are arrays: the walk
completes without throwing (`Object.entries` of a number is empty), even
though not all five fields are arrays — refuting "it completes without
exception only when all five fields are arrays". -/
theorem claim9_counterexample :
    (walkManifestImports
      (.obj [("scripts", .num 42), ("esmodules", .arr []), ("styles", .arr []),
             ("packs", .arr []), ("languages", .arr [])])).isOk = true
    ∧ jsGetField
        (.obj [("scripts", .num 42), ("esmodules", .arr []), ("styles", .arr []),
               ("packs", .arr []), ("languages", .arr [])]) "scripts" = .num 42 :=
  ⟨rfl, rfl⟩

/-- Claim C9 as amended.  The phase-A walk `forEachManifestImports` throws
(iterating the entries of `undefined`) whenever any of the five recognized
manifest import fields is absent from the manifest object, not skipping the
field or emitting a structured diagnostic; and it completes without
exception whenever all five fields are arrays (so array-ness of all five is
sufficient, but — see the counterexample — not necessary). -/
theorem claim9_amended_walk_totality :
    (∀ m k b, (k, b) ∈ manifestImports → jsGetField m k = .undefined →
      (walkManifestImports m).isOk = false)
    ∧ (∀ m, (∀ k b, (k, b) ∈ manifestImports → ∃ xs, jsGetField m k = .arr xs) →
      (walkManifestImports m).isOk = true) := by
  constructor
  · intro m k b hmem hu
    exact walk_table_err manifestImports m [] k b hmem hu
  · intro m h
    obtain ⟨st', hst'⟩ := walk_table_ok manifestImports m h []
    unfold walkManifestImports forEachManifestImports
    rw [hst']
    rfl

/-- Witness for `claim9_amended_walk_totality`: a manifest missing
`scripts` throws; a manifest with all five fields as arrays completes. -/
theorem claim9_witness :
    ((walkManifestImports
        (.obj [("esmodules", .arr []), ("styles", .arr []), ("packs", .arr []),
               ("languages", .arr [])])).isOk = false)
    ∧ ((walkManifestImports
        (.obj [("scripts", .arr [.str "a.js"]), ("esmodules", .arr []),
               ("styles", .arr []), ("packs", .arr []), ("languages", .arr [])])).isOk
      = true) := by
  constructor
  · exact claim9_amended_walk_totality.1
      (.obj [("esmodules", .arr []), ("styles", .arr []), ("packs", .arr []),
             ("languages", .arr [])])
      "scripts" false (by decide) rfl
  · refine claim9_amended_walk_totality.2
      (.obj [("scripts", .arr [.str "a.js"]), ("esmodules", .arr []),
             ("styles", .arr []), ("packs", .arr []), ("languages", .arr [])])
      (fun k b hmem => ?_)
    fin_cases hmem <;> exact ⟨_, rfl⟩

/-! ### Claim C2 -/

/-- A match of `\.\.(\/+|$)` at the head of the character list, spelled
out. -/
theorem ddAt_iff (l : List Char) :
    ddAt l = true ↔ ∃ v, l = '.' :: '.' :: v ∧ (v = [] ∨ v.head? = some '/') := by
  rcases l with _ | ⟨c1, _ | ⟨c2, rest⟩⟩
  · constructor
    · intro h; cases h
    · rintro ⟨v, hv, _⟩; cases hv
  · constructor
    · intro h; cases h
    · rintro ⟨v, hv, _⟩; cases hv
  · unfold ddAt
    simp only [Bool.and_eq_true, decide_eq_true_eq, Bool.or_eq_true,
      List.isEmpty_iff]
    constructor
    · rintro ⟨⟨h1, h2⟩, h3⟩
      exact ⟨rest, by rw [h1, h2], h3⟩
    · rintro ⟨v, hv, h3⟩
      obtain ⟨e1, hv2⟩ := List.cons.inj hv
      obtain ⟨f1, f2⟩ := List.cons.inj hv2
      subst f2
      exact ⟨⟨e1, f1⟩, h3⟩

/-- The unanchored scan succeeds iff `..` occurs somewhere immediately
followed by `/` or the end. -/
theorem nTestChars_iff (cs : List Char) :
    nTestChars cs = true ↔
      ∃ u v, cs = u ++ '.' :: '.' :: v ∧ (v = [] ∨ v.head? = some '/') := by
  induction cs with
  | nil =>
    constructor
    · intro h; cases h
    · rintro ⟨u, v, hv, _⟩; cases u <;> cases hv
  | cons c rest ih =>
    rw [nTestChars]
    rw [Bool.or_eq_true, ddAt_iff, ih]
    constructor
    · rintro (⟨v, hv, h3⟩ | ⟨u, v, hv, h3⟩)
      · exact ⟨[], v, hv, h3⟩
      · exact ⟨c :: u, v, by rw [List.cons_append, ← hv], h3⟩
    · rintro ⟨u, v, hv, h3⟩
      rcases u with _ | ⟨u0, u'⟩
      · exact Or.inl ⟨v, hv, h3⟩
      · rw [List.cons_append] at hv
        obtain ⟨-, h2⟩ := List.cons.inj hv
        exact Or.inr ⟨u', v, h2, h3⟩

/-- Claim C2 counterexample.  The path `a..` is a fixed point of
normalization (a single ordinary segment) and does not begin with a `..`
segment, yet `normalizedTraversesUpRegex` matches it: the regex is
unanchored and `..` is a suffix of the segment, immediately before the end
of the string.  This refutes the claimed "matches if and only if the path
begins with a literal `..` segment". -/
theorem claim2_counterexample :
    normalizedTraversesUp "a.." = true
    ∧ beginsWithDotDotSeg "a.." = false
    ∧ posixNormalize "a.." = "a.." :=
  ⟨rfl, rfl, rfl⟩

/-- Claim C2 as amended.  A path beginning with a literal `..` segment
followed by separator-or-end always matches the post-normalization
classifier; and in general the classifier matches exactly the paths in
which `..` occurs immediately before a `/` or before the end of the string
— which on normalized paths additionally admits paths with a segment whose
name merely ends in `..` (such as `a..`), so the original "only if"
direction fails. -/
theorem claim2_amended_characterization :
    (∀ p : String, beginsWithDotDotSeg p = true → normalizedTraversesUp p = true)
    ∧ (∀ p : String, normalizedTraversesUp p = true ↔
        ∃ u v, p.data = u ++ '.' :: '.' :: v ∧ (v = [] ∨ v.head? = some '/')) := by
  constructor
  · intro p h
    rw [normalizedTraversesUp, nTestChars_iff]
    obtain ⟨v, hv, h3⟩ := (ddAt_iff p.data).mp h
    exact ⟨[], v, hv, h3⟩
  · intro p
    exact nTestChars_iff p.data

/-- Witness for `claim2_amended_characterization` at `../x`. -/
theorem claim2_witness :
    beginsWithDotDotSeg "../x" = true ∧ normalizedTraversesUp "../x" = true :=
  ⟨by decide, claim2_amended_characterization.1 "../x" (by decide)⟩

/-! ### Claim C1

The proof that the coarse detector has no false negatives proceeds in four
stages.
1. If lexical normalization emits a leading `..`, then some prefix of the
   segment list contains more `..` segments than ordinary segments
   (`normGo_no_dd`, used contrapositively).
2. Such an excess forces the segment-level scan `scanPat` to succeed
   (`scan_counts`, used contrapositively).
3. A successful scan exhibits one of two shapes: a `..` segment preceded
   only by `.` segments, or two `..` segments with only `.` segments
   between them (`scan_shapes`).
4. Each shape is converted into an actual match of the embedded regex
   (`buildO`, `buildUnits`, `finishMatch`). -/

/-- `ancMatch` is prefix-matching: it succeeds iff some prefix of the input
is in the regex's language (via Mathlib's `rmatch`). -/
theorem ancMatch_iff (r : RegularExpression PChar) (cs : List PChar) :
    ancMatch r cs = true ↔ ∃ u v, cs = u ++ v ∧ r.rmatch u = true := by
  induction cs generalizing r with
  | nil =>
    rw [ancMatch]
    constructor
    · intro h; exact ⟨[], [], rfl, h⟩
    · rintro ⟨u, v, huv, hm⟩
      obtain ⟨hu, -⟩ := List.append_eq_nil.mp huv.symm
      rwa [hu] at hm
  | cons c cs ih =>
    rw [ancMatch, Bool.or_eq_true, ih]
    constructor
    · rintro (h | ⟨u, v, huv, hm⟩)
      · exact ⟨[], c :: cs, rfl, h⟩
      · refine ⟨c :: u, v, by rw [List.cons_append, huv], ?_⟩
        rw [RegularExpression.rmatch]
        exact hm
    · rintro ⟨u, v, huv, hm⟩
      rcases u with _ | ⟨u0, u'⟩
      · exact Or.inl hm
      · rw [List.cons_append] at huv
        obtain ⟨h0, h1⟩ := List.cons.inj huv
        subst h0
        refine Or.inr ⟨u', v, h1, ?_⟩
        rw [RegularExpression.rmatch] at hm
        exact hm

/-- Kleene-star languages are closed under prepending one word. -/
theorem star_cons {L : Language PChar} {x y : List PChar}
    (hx : x ∈ L) (hy : y ∈ KStar.kstar L) : x ++ y ∈ KStar.kstar L := by
  obtain ⟨Ls, hflat, hall⟩ := Language.mem_kstar.mp hy
  refine Language.mem_kstar.mpr ⟨x :: Ls, ?_, ?_⟩
  · rw [List.flatten_cons, hflat]
  · intro z hz
    rcases List.mem_cons.mp hz with hz | hz
    · exact hz ▸ hx
    · exact hall z hz

/-- A replicated single letter is in the star of its singleton language. -/
theorem replicate_mem_star (a : PChar) (m : Nat) :
    List.replicate m a ∈ KStar.kstar (RegularExpression.char a).matches' := by
  induction m with
  | zero => exact Language.nil_mem_kstar _
  | succ m ih =>
    rw [List.replicate_succ]
    have h1 : [a] ∈ (RegularExpression.char a).matches' := by
      rw [RegularExpression.matches'_char]; rfl
    exact star_cons h1 ih

/-- A nonempty separator run matches `[/\]+`. -/
theorem mem_sepP (n : Nat) (hn : 0 < n) :
    List.replicate n PChar.sep ∈ sepP.matches' := by
  obtain ⟨m, rfl⟩ := Nat.exists_eq_succ_of_ne_zero (Nat.pos_iff_ne_zero.mp hn)
  rw [List.replicate_succ]
  unfold sepP sepC
  rw [RegularExpression.matches'_mul]
  have h1 : [PChar.sep] ∈ (RegularExpression.char PChar.sep).matches' := by
    rw [RegularExpression.matches'_char]; rfl
  have h2 := replicate_mem_star PChar.sep m
  rw [RegularExpression.matches'_star]
  exact Language.append_mem_mul h1 h2

/-- A single non-separator abstract character matches `[^/\]`. -/
theorem mem_nonsep_single (c : PChar) (hc : notSep c = true) :
    [c] ∈ nonsep.matches' := by
  unfold nonsep
  rw [RegularExpression.matches'_add]
  cases c with
  | sep => cases hc
  | dot => exact Or.inl (by rw [RegularExpression.matches'_char]; rfl)
  | oth => exact Or.inr (by rw [RegularExpression.matches'_char]; rfl)

/-- A separator-free list is in the star of `[^/\]`. -/
theorem mem_nonsep_star (t : List PChar) (ht : ∀ c ∈ t, notSep c = true) :
    t ∈ KStar.kstar nonsep.matches' := by
  induction t with
  | nil => exact Language.nil_mem_kstar _
  | cons c t ih =>
    have h1 := mem_nonsep_single c (ht c (List.mem_cons_self c t))
    have h2 := ih (fun c' hc' => ht c' (List.mem_cons_of_mem c hc'))
    exact star_cons h1 h2

/-- A nonempty separator-free segment matches `[^/\]+`. -/
theorem mem_nonsepP (s : List PChar) (hne : s ≠ [])
    (hs : ∀ c ∈ s, notSep c = true) : s ∈ nonsepP.matches' := by
  rcases s with _ | ⟨c, t⟩
  · exact absurd rfl hne
  · unfold nonsepP
    rw [RegularExpression.matches'_mul, RegularExpression.matches'_star]
    have h1 := mem_nonsep_single c (hs c (List.mem_cons_self c t))
    have h2 := mem_nonsep_star t (fun c' hc' => hs c' (List.mem_cons_of_mem c hc'))
    exact Language.append_mem_mul h1 h2

/-- A segment followed by a separator run matches `[^/\]+[/\]+`. -/
theorem mem_unitG (s : List PChar) (n : Nat) (hne : s ≠ [])
    (hs : ∀ c ∈ s, notSep c = true) (hn : 0 < n) :
    s ++ List.replicate n PChar.sep ∈ unitG.matches' := by
  unfold unitG
  rw [RegularExpression.matches'_mul]
  exact Language.append_mem_mul (mem_nonsepP s hne hs) (mem_sepP n hn)

/-- One unit alone matches `([^/\]+[/\]+)+`. -/
theorem mem_unitsP_one {u : List PChar} (hu : u ∈ unitG.matches') :
    u ∈ unitsP.matches' := by
  unfold unitsP
  rw [RegularExpression.matches'_mul, RegularExpression.matches'_star]
  have := Language.append_mem_mul hu (Language.nil_mem_kstar unitG.matches')
  rwa [List.append_nil] at this

/-- `([^/\]+[/\]+)+` is closed under prepending one more unit. -/
theorem mem_unitsP_cons {x y : List PChar} (hx : x ∈ unitG.matches')
    (hy : y ∈ unitsP.matches') : x ++ y ∈ unitsP.matches' := by
  unfold unitsP at *
  rw [RegularExpression.matches'_mul, RegularExpression.matches'_star] at *
  obtain ⟨a, ha, b, hb, hab⟩ := Language.mem_mul.mp hy
  have hy' : y ∈ KStar.kstar unitG.matches' := hab ▸ star_cons ha hb
  exact Language.append_mem_mul hx hy'

/-- `..` matches `\.\.`. -/
theorem mem_ddR : ddSeg ∈ ddR.matches' := by
  unfold ddR
  rw [RegularExpression.matches'_mul]
  have h : [PChar.dot] ∈ (RegularExpression.char PChar.dot).matches' := by
    rw [RegularExpression.matches'_char]; rfl
  exact Language.append_mem_mul h h

/-- A `.` segment with its separator run matches the first group
alternative, `\.[/\]+`. -/
theorem mem_grp_oGrp (n : Nat) (hn : 0 < n) :
    dotSeg ++ List.replicate n PChar.sep ∈ grp.matches' := by
  unfold grp
  rw [RegularExpression.matches'_add]
  refine Or.inl ?_
  unfold oGrp
  rw [RegularExpression.matches'_mul]
  have h : [PChar.dot] ∈ (RegularExpression.char PChar.dot).matches' := by
    rw [RegularExpression.matches'_char]; rfl
  exact Language.append_mem_mul h (mem_sepP n hn)

/-- A unit run followed by a cancelled `..` segment matches the second
group alternative, `([^/\]+[/\]+)+?\.\.[/\]+`. -/
theorem mem_grp_nGrp {u : List PChar} (hu : u ∈ unitsP.matches')
    (n : Nat) (hn : 0 < n) :
    u ++ (ddSeg ++ List.replicate n PChar.sep) ∈ grp.matches' := by
  unfold grp
  rw [RegularExpression.matches'_add]
  refine Or.inr ?_
  unfold nGrp
  rw [RegularExpression.matches'_mul, RegularExpression.matches'_mul]
  exact Language.append_mem_mul hu (Language.append_mem_mul mem_ddR (mem_sepP n hn))

/-- Peeling the first segment off a character list that does not start with
a separator: the list is the segment followed by a (possibly empty)
remainder that starts with a separator. -/
theorem split_uncons (cs : List PChar)
    {s : List PChar} {ss : List (List PChar)}
    (hsplit : splitSegs cs = s :: ss) (hhead : cs.head? ≠ some PChar.sep) :
    ∃ rest, cs = s ++ rest ∧ splitSegs rest = ss ∧ s ≠ [] ∧
      (∀ c ∈ s, notSep c = true) ∧
      (rest = [] ∨ rest.head? = some PChar.sep) := by
  rcases cs with _ | ⟨c, cs'⟩
  · rw [splitSegs] at hsplit; cases hsplit
  · have hc : notSep c = true := by
      cases c with
      | sep => exact absurd rfl hhead
      | dot => rfl
      | oth => rfl
    have heq : splitSegs (c :: cs')
        = (c :: cs'.takeWhile notSep) :: splitSegs (cs'.dropWhile notSep) := by
      cases c with
      | sep => cases hc
      | dot => rw [splitSegs]
      | oth => rw [splitSegs]
    rw [heq] at hsplit
    obtain ⟨hseg, hss⟩ := List.cons.inj hsplit
    refine ⟨cs'.dropWhile notSep, ?_, hss, ?_, ?_, ?_⟩
    · rw [← hseg, List.cons_append, List.takeWhile_append_dropWhile]
    · rw [← hseg]; exact List.cons_ne_nil _ _
    · intro x hx
      rw [← hseg] at hx
      rcases List.mem_cons.mp hx with hx | hx
      · exact hx ▸ hc
      · exact List.mem_takeWhile_imp hx
    · rcases hd : cs'.dropWhile notSep with _ | ⟨d, ds⟩
      · exact Or.inl rfl
      · refine Or.inr ?_
        have hlen : 0 < (cs'.dropWhile notSep).length := by rw [hd]; simp
        have := List.dropWhile_get_zero_not (p := notSep) cs' hlen
        have hdval : (cs'.dropWhile notSep).get ⟨0, hlen⟩ = d := by
          simp [hd]
        rw [hdval] at this
        cases d with
        | sep => simp
        | dot => simp [notSep] at this
        | oth => simp [notSep] at this

/-- Every character list is a run of separators followed by a part not
starting with a separator, and segmentation ignores the run. -/
theorem strip_seps (cs : List PChar) :
    ∃ n cs', cs = List.replicate n PChar.sep ++ cs' ∧
      splitSegs cs' = splitSegs cs ∧ cs'.head? ≠ some PChar.sep := by
  induction cs with
  | nil =>
    exact ⟨0, [], rfl, rfl, by simp⟩
  | cons c cs' ih =>
    cases c with
    | sep =>
      obtain ⟨n, cs'', h1, h2, h3⟩ := ih
      refine ⟨n + 1, cs'', ?_, ?_, h3⟩
      · rw [List.replicate_succ, List.cons_append, ← h1]
      · rw [splitSegs, h2]
    | dot => exact ⟨0, PChar.dot :: cs', rfl, rfl, by simp⟩
    | oth => exact ⟨0, PChar.oth :: cs', rfl, rfl, by simp⟩

/-- Assemble the final regex match from a star-of-groups part followed by
`..` and either the end of the input or a separator. -/
theorem finishMatch (cs g r : List PChar) (hcs : cs = g ++ ddSeg ++ r)
    (hg : g ∈ KStar.kstar grp.matches')
    (hr : r = [] ∨ r.head? = some PChar.sep) :
    (ancMatch fullR cs || bodyB.rmatch cs) = true := by
  have hbody : g ++ ddSeg ∈ bodyB.matches' := by
    unfold bodyB
    rw [RegularExpression.matches'_mul, RegularExpression.matches'_star]
    exact Language.append_mem_mul hg mem_ddR
  rcases hr with hr | hr
  · refine Bool.or_eq_true _ _ |>.mpr (Or.inr ?_)
    rw [RegularExpression.rmatch_iff_matches']
    rw [hcs, hr, List.append_nil]
    exact hbody
  · rcases r with _ | ⟨r0, r'⟩
    · cases hr
    · have hr0 : r0 = PChar.sep := by
        rw [List.head?_cons] at hr
        exact Option.some.inj hr
      subst hr0
      refine Bool.or_eq_true _ _ |>.mpr (Or.inl ?_)
      rw [ancMatch_iff]
      refine ⟨g ++ ddSeg ++ [PChar.sep], r', ?_, ?_⟩
      · rw [hcs]; simp
      · rw [RegularExpression.rmatch_iff_matches']
        unfold fullR
        rw [RegularExpression.matches'_mul]
        have hsep : [PChar.sep] ∈ sepP.matches' := by
          have := mem_sepP 1 (by omega)
          simpa using this
        exact Language.append_mem_mul hbody hsep

/-- A nonempty remainder whose segmentation is nonempty, known to be empty
or separator-headed, is separator-headed — and its separator run is
nonempty. -/
theorem strip_first_pos {rest : List PChar} {n : Nat} {cs₂ : List PChar}
    (hne : splitSegs rest ≠ [])
    (hopts : rest = [] ∨ rest.head? = some PChar.sep)
    (hrep : rest = List.replicate n PChar.sep ++ cs₂)
    (hhead₂ : cs₂.head? ≠ some PChar.sep) : 0 < n := by
  rcases hopts with hnil | hsep
  · rw [hnil, splitSegs] at hne
    exact absurd rfl hne
  · rcases n with _ | n
    · rw [List.replicate_zero, List.nil_append] at hrep
      rw [← hrep] at hhead₂
      exact absurd hsep hhead₂
    · omega

/-- Stage 4a: a list of `.` segments followed by a `..` segment is turned
into a star-of-groups prefix followed by the final `..`. -/
theorem buildO (os : List (List PChar)) (hos : ∀ s ∈ os, s = dotSeg) :
    ∀ (cs : List PChar) (restSegs : List (List PChar)),
    splitSegs cs = os ++ ddSeg :: restSegs → cs.head? ≠ some PChar.sep →
    ∃ g r, cs = g ++ ddSeg ++ r ∧ g ∈ KStar.kstar grp.matches' ∧
      (r = [] ∨ r.head? = some PChar.sep) := by
  induction os with
  | nil =>
    intro cs restSegs hsplit hhead
    rw [List.nil_append] at hsplit
    obtain ⟨rest, hcs, hrest, -, -, hopts⟩ := split_uncons cs hsplit hhead
    exact ⟨[], rest, by rw [hcs, List.nil_append], Language.nil_mem_kstar _, hopts⟩
  | cons s os' ih =>
    intro cs restSegs hsplit hhead
    have hs : s = dotSeg := hos s (List.mem_cons_self s os')
    rw [List.cons_append] at hsplit
    obtain ⟨rest, hcs, hrest, -, -, hopts⟩ := split_uncons cs hsplit hhead
    have hne : splitSegs rest ≠ [] := by
      rw [hrest]
      rcases os' with _ | ⟨o, os''⟩ <;> exact List.cons_ne_nil _ _
    obtain ⟨n, cs₂, hrep, hsame, hhead₂⟩ := strip_seps rest
    have hn : 0 < n := strip_first_pos hne hopts hrep hhead₂
    have hsplit₂ : splitSegs cs₂ = os' ++ ddSeg :: restSegs := by
      rw [hsame, hrest]
    obtain ⟨g', r, hcs₂, hg', hr⟩ :=
      ih (fun t ht => hos t (List.mem_cons_of_mem s ht)) cs₂ restSegs hsplit₂ hhead₂
    refine ⟨(dotSeg ++ List.replicate n PChar.sep) ++ g', r, ?_, ?_, hr⟩
    · rw [hcs, hs, hrep, hcs₂]
      simp [List.append_assoc]
    · exact star_cons (mem_grp_oGrp n hn) hg'

/-- Stage 4b: a nonempty run of arbitrary segments, each followed by its
separator run, is turned into a `([^/\]+[/\]+)+` prefix. -/
theorem buildUnits (l1 : List (List PChar)) (hne : l1 ≠ []) :
    ∀ (cs : List PChar) (ss : List (List PChar)),
    splitSegs cs = l1 ++ ss → ss ≠ [] → cs.head? ≠ some PChar.sep →
    ∃ u r, cs = u ++ r ∧ u ∈ unitsP.matches' ∧ splitSegs r = ss ∧
      r.head? ≠ some PChar.sep := by
  induction l1 with
  | nil => exact absurd rfl hne
  | cons s l1' ih =>
    intro cs ss hsplit hss hhead
    rw [List.cons_append] at hsplit
    obtain ⟨rest, hcs, hrest, hsne, hsfree, hopts⟩ := split_uncons cs hsplit hhead
    have hrestne : splitSegs rest ≠ [] := by
      rw [hrest]
      rcases l1' with _ | ⟨t, l1''⟩
      · rw [List.nil_append]
        intro hc
        exact hss hc
      · exact List.cons_ne_nil _ _
    obtain ⟨n, cs₂, hrep, hsame, hhead₂⟩ := strip_seps rest
    have hn : 0 < n := strip_first_pos hrestne hopts hrep hhead₂
    have hunit : s ++ List.replicate n PChar.sep ∈ unitG.matches' :=
      mem_unitG s n hsne hsfree hn
    rcases l1' with _ | ⟨s₂, l1''⟩
    · -- single segment: everything after the separator run is the remainder
      have hsplit₂ : splitSegs cs₂ = ss := by
        rw [hsame, hrest, List.nil_append]
      refine ⟨s ++ List.replicate n PChar.sep, cs₂, ?_, mem_unitsP_one hunit,
        hsplit₂, hhead₂⟩
      rw [hcs, hrep]
      simp [List.append_assoc]
    · -- more segments: recurse on the rest
      have hsplit₂ : splitSegs cs₂ = (s₂ :: l1'') ++ ss := by
        rw [hsame, hrest]
      obtain ⟨u', r, hcs₂, hu', hsr, hhr⟩ :=
        ih (List.cons_ne_nil _ _) cs₂ ss hsplit₂ hss hhead₂
      refine ⟨(s ++ List.replicate n PChar.sep) ++ u', r, ?_,
        mem_unitsP_cons hunit hu', hsr, hhr⟩
      rw [hcs, hrep, hcs₂]
      simp [List.append_assoc]

/-- Stage 2 (contrapositive form): if the segment scan fails, no prefix of
the segment list has more `..` segments than ordinary segments (with one
unit of slack in the unarmed state). -/
theorem scan_counts (segs : List (List PChar)) :
    (scanPat true segs = false →
      ∀ n, countD (segs.take n) ≤ countN (segs.take n))
    ∧ (scanPat false segs = false →
      ∀ n, countD (segs.take n) ≤ countN (segs.take n) + 1) := by
  induction segs with
  | nil =>
    refine ⟨fun _ n => ?_, fun _ n => ?_⟩ <;> simp [countD, countN]
  | cons s rest ih =>
    have hcount : ∀ (l : List (List PChar)),
        countD (s :: l) = countD l + (if s = ddSeg then 1 else 0)
        ∧ countN (s :: l)
          = countN l + (if s ≠ ddSeg ∧ s ≠ dotSeg then 1 else 0) := by
      intro l
      constructor
      · simp [countD, List.countP_cons]
      · simp [countN, List.countP_cons]
    by_cases hdot : s = dotSeg
    · have hscan : ∀ a, scanPat a (s :: rest) = scanPat a rest := by
        intro a; rw [scanPat, if_pos hdot]
      have hdd : ¬ s = ddSeg := by rw [hdot]; intro hc; cases hc
      refine ⟨fun h n => ?_, fun h n => ?_⟩ <;>
      · rcases n with _ | n
        · simp [countD, countN]
        · rw [List.take_succ_cons]
          obtain ⟨hD, hN⟩ := hcount (rest.take n)
          rw [hD, hN, if_neg hdd, if_neg (by simp [hdot])]
          first
            | exact Nat.le_trans (Nat.add_le_add_right ((ih.1 ((hscan true) ▸ h)) n) 0)
                (by omega)
            | exact Nat.le_trans (Nat.add_le_add_right ((ih.2 ((hscan false) ▸ h)) n) 0)
                (by omega)
    · by_cases hdd : s = ddSeg
      · have hscan : ∀ a, scanPat a (s :: rest) = (a || scanPat true rest) := by
          intro a; rw [scanPat, if_neg hdot, if_pos hdd]
        constructor
        · intro h
          rw [hscan true] at h
          cases h
        · intro h n
          rw [hscan false, Bool.false_or] at h
          rcases n with _ | n
          · simp [countD, countN]
          · rw [List.take_succ_cons]
            obtain ⟨hD, hN⟩ := hcount (rest.take n)
            rw [hD, hN, if_pos hdd, if_neg (by simp [hdd])]
            have := ih.1 h n
            omega
      · have hscan : ∀ a, scanPat a (s :: rest) = scanPat false rest := by
          intro a; rw [scanPat, if_neg hdot, if_neg hdd]
        refine ⟨fun h n => ?_, fun h n => ?_⟩ <;>
        · rcases n with _ | n
          · simp [countD, countN]
          · rw [List.take_succ_cons]
            obtain ⟨hD, hN⟩ := hcount (rest.take n)
            rw [hD, hN, if_neg hdd, if_pos ⟨hdd, hdot⟩]
            have := ih.2 ((hscan _) ▸ h) n
            omega

/-- Stage 3: a successful scan exhibits either a `..` segment preceded only
by `.` segments, or (armed case) additionally a nonempty block of arbitrary
segments closed by an earlier `..`; in the unarmed case the leading block
may be empty. -/
theorem scan_shapes (segs : List (List PChar)) :
    (scanPat true segs = true →
      (∃ os rest, (∀ s ∈ os, s = dotSeg) ∧ segs = os ++ ddSeg :: rest)
      ∨ (∃ l1 os rest, l1 ≠ [] ∧ (∀ s ∈ os, s = dotSeg) ∧
          segs = l1 ++ ddSeg :: (os ++ ddSeg :: rest)))
    ∧ (scanPat false segs = true →
      (∃ l1 os rest, (∀ s ∈ os, s = dotSeg) ∧
        segs = l1 ++ ddSeg :: (os ++ ddSeg :: rest))) := by
  induction segs with
  | nil => exact ⟨fun h => Bool.noConfusion h, fun h => Bool.noConfusion h⟩
  | cons s rest ih =>
    by_cases hdot : s = dotSeg
    · have hscan : ∀ a, scanPat a (s :: rest) = scanPat a rest := by
        intro a; rw [scanPat, if_pos hdot]
      constructor
      · intro h
        rcases ih.1 ((hscan true) ▸ h) with ⟨os, r, hos, hr⟩ | ⟨l1, os, r, hl1, hos, hr⟩
        · refine Or.inl ⟨s :: os, r, ?_, by rw [List.cons_append, hr]⟩
          intro t ht
          rcases List.mem_cons.mp ht with ht | ht
          · exact ht ▸ hdot
          · exact hos t ht
        · exact Or.inr ⟨s :: l1, os, r, List.cons_ne_nil _ _, hos,
            by rw [List.cons_append, hr]⟩
      · intro h
        obtain ⟨l1, os, r, hos, hr⟩ := ih.2 ((hscan false) ▸ h)
        exact ⟨s :: l1, os, r, hos, by rw [List.cons_append, hr]⟩
    · by_cases hdd : s = ddSeg
      · have hscan : ∀ a, scanPat a (s :: rest) = (a || scanPat true rest) := by
          intro a; rw [scanPat, if_neg hdot, if_pos hdd]
        constructor
        · intro _
          refine Or.inl ⟨[], rest, ?_, ?_⟩
          · intro t ht
            exact absurd ht (List.not_mem_nil t)
          · rw [List.nil_append, hdd]
        · intro h
          rw [hscan false, Bool.false_or] at h
          rcases ih.1 h with ⟨os, r, hos, hr⟩ | ⟨l1, os, r, _, hos, hr⟩
          · exact ⟨[], os, r, hos, by rw [List.nil_append, hdd, hr]⟩
          · refine ⟨s :: l1, os, r, hos, ?_⟩
            rw [List.cons_append, hr]
      · have hscan : ∀ a, scanPat a (s :: rest) = scanPat false rest := by
          intro a; rw [scanPat, if_neg hdot, if_neg hdd]
        constructor
        · intro h
          obtain ⟨l1, os, r, hos, hr⟩ := ih.2 ((hscan true) ▸ h)
          exact Or.inr ⟨s :: l1, os, r, List.cons_ne_nil _ _, hos,
            by rw [List.cons_append, hr]⟩
        · intro h
          obtain ⟨l1, os, r, hos, hr⟩ := ih.2 ((hscan false) ▸ h)
          exact ⟨s :: l1, os, r, hos, by rw [List.cons_append, hr]⟩

/-- Stage 1 (contrapositive form): if no prefix of the segment list has an
excess of `..` segments (relative to the poppable stack residue), lexical
normalization never emits a `..` segment. -/
theorem normGo_no_dd (segs : List (List PChar)) :
    ∀ stack, (∀ s ∈ stack, s ≠ ddSeg) →
    (∀ n, countD (segs.take n) ≤ countN (segs.take n) + stack.length) →
    ∀ s ∈ normGo stack segs, s ≠ ddSeg := by
  induction segs with
  | nil =>
    intro stack hstack _ s hs
    rw [normGo] at hs
    exact hstack s (List.mem_reverse.mp hs)
  | cons s rest ih =>
    intro stack hstack hcounts
    have hcount : ∀ (l : List (List PChar)),
        countD (s :: l) = countD l + (if s = ddSeg then 1 else 0)
        ∧ countN (s :: l)
          = countN l + (if s ≠ ddSeg ∧ s ≠ dotSeg then 1 else 0) := by
      intro l
      constructor
      · simp [countD, List.countP_cons]
      · simp [countN, List.countP_cons]
    by_cases hdot : s = dotSeg
    · rw [normGo, if_pos hdot]
      refine ih stack hstack (fun n => ?_)
      have h := hcounts (n + 1)
      rw [List.take_succ_cons] at h
      obtain ⟨hD, hN⟩ := hcount (rest.take n)
      rw [hD, hN, if_neg (by rw [hdot]; intro hc; cases hc),
        if_neg (by simp [hdot])] at h
      omega
    · by_cases hdd : s = ddSeg
      · rw [normGo, if_neg hdot, if_pos hdd]
        rcases stack with _ | ⟨top, stk⟩
        · exfalso
          have h := hcounts 1
          rw [List.take_succ_cons, List.take_zero] at h
          obtain ⟨hD, hN⟩ := hcount []
          rw [hD, hN, if_pos hdd, if_neg (by simp [hdd])] at h
          simp [countD, countN] at h
        · have htop : ¬ top = ddSeg := hstack top (List.mem_cons_self top stk)
          rw [popStep, if_neg htop]
          refine ih stk (fun t ht => hstack t (List.mem_cons_of_mem top ht))
            (fun n => ?_)
          have h := hcounts (n + 1)
          rw [List.take_succ_cons] at h
          obtain ⟨hD, hN⟩ := hcount (rest.take n)
          rw [hD, hN, if_pos hdd, if_neg (by simp [hdd])] at h
          rw [List.length_cons] at h
          omega
      · rw [normGo, if_neg hdot, if_neg hdd]
        refine ih (s :: stack) (fun t ht => ?_) (fun n => ?_)
        · rcases List.mem_cons.mp ht with ht | ht
          · exact ht ▸ hdd
          · exact hstack t ht
        · have h := hcounts (n + 1)
          rw [List.take_succ_cons] at h
          obtain ⟨hD, hN⟩ := hcount (rest.take n)
          rw [hD, hN, if_neg hdd, if_pos ⟨hdd, hdot⟩] at h
          rw [List.length_cons]
          omega

/-- Claim C1 (confirmed).  The coarse pre-normalization detector
`traversesUpDirectoryRegex` has zero false negatives: for every input path
string `p` — possibly mixing `/` and `\` separators — if `p` nets upward
out of its starting directory (lexical normalization of `p` yields a path
beginning with a `..` segment), then the regex matches `p`.  (Matching
net-zero paths such as `./a/b/../..` — false positives — is permitted and
indeed happens; this theorem only rules out false negatives.) -/
theorem claim1_coarse_no_false_negatives (p : String)
    (h : netsUpward p = true) : traversesUpTest p = true := by
  unfold netsUpward at h
  unfold traversesUpTest
  dsimp only at h ⊢
  revert h
  generalize p.data.map classify = cs
  intro h
  -- extract from the hypothesis: `cs` is not separator-initial, and
  -- normalization emits a leading `..`
  have hsplit : cs.head? ≠ some PChar.sep ∧
      (normGo [] (splitSegs cs)).head? = some ddSeg := by
    rcases hc : cs.head? with _ | c
    · rw [hc] at h
      exact ⟨by simp, of_decide_eq_true h⟩
    · cases c with
      | sep => rw [hc] at h; cases h
      | dot => exact ⟨by simp [hc], of_decide_eq_true (by rwa [hc] at h)⟩
      | oth => exact ⟨by simp [hc], of_decide_eq_true (by rwa [hc] at h)⟩
  obtain ⟨hhead, hnorm⟩ := hsplit
  have hmem : ddSeg ∈ normGo [] (splitSegs cs) :=
    List.mem_of_mem_head? (Option.mem_def.mpr hnorm)
  -- stage 1 + stage 2: the scan must succeed
  have hscan : scanPat true (splitSegs cs) = true := by
    by_contra hs
    have hs' := eq_false_of_ne_true hs
    have hcounts := (scan_counts (splitSegs cs)).1 hs'
    have hnodd := normGo_no_dd (splitSegs cs) []
      (fun t ht => absurd ht (List.not_mem_nil t))
      (fun n => by simpa using hcounts n)
    exact hnodd ddSeg hmem rfl
  -- stage 3: extract a shape, stage 4: build the regex match
  rcases (scan_shapes (splitSegs cs)).1 hscan with hI | hII
  · obtain ⟨os, restSegs, hos, hsegs⟩ := hI
    obtain ⟨g, r, hcs', hg, hr⟩ := buildO os hos cs restSegs hsegs hhead
    exact finishMatch cs g r hcs' hg hr
  · obtain ⟨l1, os, restSegs, hl1, hos, hsegs⟩ := hII
    obtain ⟨u, r₁, hcs₁, hu, hsr₁, hh₁⟩ :=
      buildUnits l1 hl1 cs _ hsegs (List.cons_ne_nil _ _) hhead
    obtain ⟨rest₂, hr₁, hrest₂, -, -, hopts₂⟩ := split_uncons r₁ hsr₁ hh₁
    have hne₂ : splitSegs rest₂ ≠ [] := by
      rw [hrest₂]
      rcases os with _ | ⟨o, os'⟩ <;> exact List.cons_ne_nil _ _
    obtain ⟨n, cs₃, hrep₃, hsame₃, hh₃⟩ := strip_seps rest₂
    have hn : 0 < n := strip_first_pos hne₂ hopts₂ hrep₃ hh₃
    have hsplit₃ : splitSegs cs₃ = os ++ ddSeg :: restSegs := by
      rw [hsame₃, hrest₂]
    obtain ⟨g', r, hcs₃, hg', hr⟩ := buildO os hos cs₃ restSegs hsplit₃ hh₃
    refine finishMatch cs ((u ++ (ddSeg ++ List.replicate n PChar.sep)) ++ g') r
      ?_ ?_ hr
    · rw [hcs₁, hr₁, hrep₃, hcs₃]
      simp [List.append_assoc]
    · exact star_cons (mem_grp_nGrp hu n hn) hg'

/-- Witness for `claim1_coarse_no_false_negatives` at the concrete upward
path `../a`. -/
theorem claim1_witness :
    netsUpward "../a" = true ∧ traversesUpTest "../a" = true := by
  have hdata : "../a".data.map classify
      = [PChar.dot, PChar.dot, PChar.sep, PChar.oth] := by decide
  have hne : netsUpward "../a" = true := by
    unfold netsUpward
    dsimp only
    rw [hdata]
    simp only [List.head?_cons]
    rw [show splitSegs [PChar.dot, PChar.dot, PChar.sep, PChar.oth]
        = [ddSeg, [PChar.oth]] by
      rw [splitSegs]
      norm_num [List.takeWhile, List.dropWhile, notSep]
      rw [splitSegs, splitSegs]
      norm_num [List.takeWhile, List.dropWhile, notSep, ddSeg]
      rw [splitSegs]]
    simp [normGo, popStep, ddSeg, dotSeg]
  exact ⟨hne, claim1_coarse_no_false_negatives "../a" hne⟩

end FoundrySpec
